import Mathlib

/-!
Verification of the directory navigation and search core of the TUI file
explorer (src/script.py).  The embedding below translates, function by
function, the pieces of the source that the claims depend on:

* `FileList.load_directory` (listing: hidden-file policy, sort, truncation,
  error handling) and `FileList.toggle_hidden`;
* `FileExplorer.apply_filter` (category / extension / substring filtering);
* `FileExplorer.bfs_search` (bounded breadth-first search);
* `FileExplorer.on_input_changed` / `FileExplorer.do_search` (the debounced
  search path and what gets published to the search panel).

Filesystem paths are modelled as lists of name components; the filesystem
itself is a function from a path to the listing `Path.iterdir` would
produce, with `none` standing for the PermissionError / OSError /
not-a-directory outcomes.  Python string operations are modelled character
by character on the underlying character lists (ASCII case folding, code
point comparison), which is how Python behaves on the ASCII inputs used
throughout.
-/

/-- Snapshot of one filesystem item as produced by a directory read: its
final name component and whether it is a directory (`Path.is_dir`). -/
structure Entry where
  name : String
  isDir : Bool
deriving DecidableEq

/-- Filesystem paths, modelled as the list of name components below the
filesystem root; the child of directory `p` named `n` has path `p ++ [n]`,
mirroring how `Path.iterdir` yields `parent / name` objects. -/
abbrev FsPath := List String

/-- The filesystem as seen through `Path.iterdir`: `fs p` is `some items`
when enumerating directory `p` succeeds, and `none` when `p` is not a
readable directory (PermissionError, OSError, or not a directory). -/
abbrev Fs := FsPath → Option (List Entry)

/-- Python `str.lower` on a character list (ASCII case folding). -/
def lowerChars (cs : List Char) : List Char := cs.map Char.toLower

/-- Python `str.lower` on a string. -/
def lowerStr (s : String) : String := ⟨lowerChars s.data⟩

/-- Boolean test that `p` is an initial run of `l` (Python `str.startswith`). -/
def leadsChars : List Char → List Char → Bool
  | [], _ => true
  | _ :: _, [] => false
  | a :: as, b :: bs => a == b && leadsChars as bs

/-- Python substring containment `p in l` on character lists. -/
def containsSub (p : List Char) : List Char → Bool
  | [] => p.isEmpty
  | c :: cs => leadsChars p (c :: cs) || containsSub p cs

/-- Python `item.name.startswith('.')`, the hidden-file test of
`FileList.load_directory`. -/
def isHidden (e : Entry) : Bool :=
  match e.name.data with
  | '.' :: _ => true
  | _ => false

/-- Lexicographic comparison of character lists by code point, the order
Python uses when comparing `str` values inside a sort key. -/
def lexLe : List Char → List Char → Bool
  | [], _ => true
  | _ :: _, [] => false
  | a :: as, b :: bs =>
    if a.toNat < b.toNat then true
    else if b.toNat < a.toNat then false
    else lexLe as bs

/-- First component of the sort key `(not x.is_dir(), x.name.lower())`:
directories sort as 0, files as 1. -/
def rankOf (e : Entry) : Nat := if e.isDir then 0 else 1

/-- Second component of the sort key: the lowercased name. -/
def lowerName (e : Entry) : List Char := lowerChars e.name.data

/-- The total preorder on entries induced by the sort key
`(not x.is_dir(), x.name.lower())` of `FileList.load_directory`. -/
def entryLE (a b : Entry) : Bool :=
  if rankOf a < rankOf b then true
  else if rankOf b < rankOf a then false
  else lexLe (lowerName a) (lowerName b)

/-- Stable insertion of an entry into a list sorted by `entryLE`: the new
entry goes in front of the first element it compares `≤` to, hence in
front of key-ties coming from later positions of the original list. -/
def insertE (x : Entry) : List Entry → List Entry
  | [] => [x]
  | y :: ys => if entryLE x y then x :: y :: ys else y :: insertE x ys

/-- Stable sort of a listing by the key `(not x.is_dir(), x.name.lower())`.
Python's `list.sort(key=...)` is a stable sort by this key, and the stable
sorted permutation of a list is unique, so this insertion sort computes
the same output list as the source. -/
def sortE : List Entry → List Entry
  | [] => []
  | x :: xs => insertE x (sortE xs)

/-- State of the `FileList` widget as far as the listing code touches it:
the current directory, the displayed entries, the selection index, and the
hidden-file toggle. -/
structure FileListState where
  currentPath : FsPath
  files : List Entry
  selectedIdx : Nat
  showHidden : Bool
deriving DecidableEq

/-- `FileList.load_directory`: set the current path and reset the
selection, read the directory, drop names starting with `'.'` unless
`show_hidden`, sort by `(not is_dir, name.lower())`, and keep the first
300 entries; on PermissionError / OSError the file list becomes empty
(the state is still returned, nothing propagates). -/
def load_directory (fs : Fs) (st : FileListState) (path : FsPath) : FileListState :=
  match fs path with
  | none => { st with currentPath := path, selectedIdx := 0, files := [] }
  | some items =>
    let kept := if st.showHidden then items else items.filter (fun i => !(isHidden i))
    { st with currentPath := path, selectedIdx := 0, files := (sortE kept).take 300 }

/-- `FileList.toggle_hidden`: flip the flag and re-list the current
directory. -/
def toggle_hidden (fs : Fs) (st : FileListState) : FileListState :=
  load_directory fs { st with showHidden := !st.showHidden } st.currentPath

/-- Index of the last `'.'` in a character list (Python `name.rfind('.')`),
`none` when there is no dot. -/
def rfindDot : List Char → Option Nat
  | [] => none
  | c :: cs =>
    match rfindDot cs with
    | some i => some (i + 1)
    | none => if c == '.' then some 0 else none

/-- pathlib's `PurePath.suffix`: the substring from the last dot onward,
provided that dot is neither the first nor the last character of the
name; otherwise the empty string. -/
def suffixOf (name : String) : String :=
  match rfindDot name.data with
  | none => ""
  | some i => if 0 < i ∧ i + 1 < name.data.length then ⟨name.data.drop i⟩ else ""

/-- Python `i.suffix.lower()`. -/
def suffixLower (e : Entry) : String := lowerStr (suffixOf e.name)

/-- Python `str.strip()`: remove whitespace from both ends. -/
def stripStr (s : String) : String :=
  ⟨((s.data.dropWhile Char.isWhitespace).reverse.dropWhile Char.isWhitespace).reverse⟩

/-- The `type_filters` dict of `FileExplorer.apply_filter`, as an
association list in source order. -/
def type_filters : List (String × List String) :=
  [("img", [".png", ".jpg", ".jpeg", ".gif", ".bmp", ".webp", ".ico", ".svg"]),
   ("image", [".png", ".jpg", ".jpeg", ".gif", ".bmp", ".webp", ".ico", ".svg"]),
   ("vid", [".mp4", ".avi", ".mkv", ".mov", ".wmv", ".flv", ".webm"]),
   ("video", [".mp4", ".avi", ".mkv", ".mov", ".wmv", ".flv", ".webm"]),
   ("audio", [".mp3", ".wav", ".flac", ".ogg", ".m4a", ".aac"]),
   ("doc", [".pdf", ".doc", ".docx", ".txt", ".md"]),
   ("code", [".py", ".js", ".cpp", ".c", ".java", ".rs", ".go", ".rb", ".php"]),
   ("archive", [".zip", ".tar", ".gz", ".bz2", ".7z", ".rar"])]

/-- Selection step of `FileExplorer.apply_filter` (the three alternative
`filtered = [...]` assignments): the type-table extension matches when the
text is a key of the table, else the exact-extension matches when the text
starts with a dot, else the name-substring matches. -/
def selectEntries (items : List Entry) (fl : String) : List Entry :=
  match type_filters.lookup fl with
  | some exts => items.filter (fun i => decide (suffixLower i ∈ exts))
  | none =>
    if leadsChars ['.'] fl.data then items.filter (fun i => suffixLower i == fl)
    else items.filter (fun i => containsSub fl.data (lowerName i))

/-- `FileExplorer.apply_filter`: lowercase and strip the filter text; empty
text reloads the directory; otherwise the current directory is read again
from the filesystem and `selectEntries` keeps the matching entries of that
fresh listing, which are sorted and truncated to 300.  A read error leaves
the state unchanged. -/
def apply_filter (fs : Fs) (st : FileListState) (filterText : String) : FileListState :=
  let fl := stripStr (lowerStr filterText)
  if fl = "" then load_directory fs st st.currentPath
  else
    match fs st.currentPath with
    | none => st
    | some items =>
      let filtered := selectEntries items fl
      { st with files := (sortE filtered).take 300, selectedIdx := 0 }

/-- Children of `current` that match the query, as full paths: in
`FileExplorer.bfs_search`, each `item` of `current.iterdir()` with
`query in item.name.lower()` is appended to the results. -/
def matchChildren (query : String) (current : FsPath) (items : List Entry) : List FsPath :=
  (items.filter (fun i => containsSub query.data (lowerName i))).map
    (fun i => current ++ [i.name])

/-- Children of `current` that are directories, as full paths, in listing
order; `FileExplorer.bfs_search` enqueues these onto the frontier. -/
def childDirs (current : FsPath) (items : List Entry) : List FsPath :=
  (items.filter (fun i => i.isDir)).map (fun i => current ++ [i.name])

/-- Loop of `FileExplorer.bfs_search`.  The loop runs while the frontier is
nonempty, fewer than `maxResults` results have been gathered, and fewer
than `max_dirs = 300` directories have been visited; each step dequeues
`current`, skips it when already visited, otherwise marks it visited and,
when it is a readable directory, appends its matching children to the
results and enqueues its subdirectories.  Read errors (and non-directory
paths) only skip the current expansion.  Returns the results together with
the visited set (in insertion order) and the frontier left at exit. -/
def bfsLoop (fs : Fs) (query : String) (maxResults : Nat)
    (queue results visited : List FsPath) :
    List FsPath × List FsPath × List FsPath :=
  match queue with
  | [] => (results, visited, [])
  | current :: rest =>
    if maxResults ≤ results.length ∨ 300 ≤ visited.length then
      (results, visited, current :: rest)
    else if current ∈ visited then
      bfsLoop fs query maxResults rest results visited
    else
      match fs current with
      | none => bfsLoop fs query maxResults rest results (visited ++ [current])
      | some items =>
        bfsLoop fs query maxResults (rest ++ childDirs current items)
          (results ++ matchChildren query current items) (visited ++ [current])
termination_by (300 - visited.length, queue.length)
decreasing_by
  · apply Prod.Lex.right; simp
  · apply Prod.Lex.left; simp; omega
  · apply Prod.Lex.left; simp; omega

/-- `FileExplorer.bfs_search` with its internal state exposed: the results,
the visited set, and the frontier remaining at exit. -/
def bfs_searchFull (fs : Fs) (root : FsPath) (query : String) (maxResults : Nat) :
    List FsPath × List FsPath × List FsPath :=
  bfsLoop fs query maxResults [root] [] []

/-- `FileExplorer.bfs_search` (the `max_results` parameter defaults to 150
at the call site in `do_search`). -/
def bfs_search (fs : Fs) (root : FsPath) (query : String) (maxResults : Nat) :
    List FsPath :=
  (bfs_searchFull fs root query maxResults).1

/-- The `FileExplorer` state touched by the search/filter input path: the
mode flags, the file list, the debounce timers pending in FIFO order (each
holding the input value its closure captured), and the sequence of result
sets handed to `SearchPanel.show_results`. -/
structure AppState where
  searchActive : Bool
  filterActive : Bool
  fileList : FileListState
  timers : List String
  published : List (String × List FsPath)
deriving DecidableEq

/-- `FileExplorer.on_input_changed`: in search mode an input of length ≥ 2
schedules a debounce timer capturing the current value; otherwise, in
filter mode, the filter is applied immediately. -/
def on_input_changed (fs : Fs) (st : AppState) (value : String) : AppState :=
  if st.searchActive ∧ 2 ≤ value.length then
    { st with timers := st.timers ++ [value] }
  else if st.filterActive then
    { st with fileList := apply_filter fs st.fileList value }
  else st

/-- `FileExplorer.do_search`, run when a debounce timer fires: unless
search mode has been left, run the BFS from the current directory on the
lowercased query and hand the results to the search panel.  The only guard
is `search_active`; no generation counter exists anywhere in the source. -/
def do_search (fs : Fs) (st : AppState) (query : String) : AppState :=
  if st.searchActive then
    { st with published := st.published ++
        [(query, bfs_search fs st.fileList.currentPath (lowerStr query) 150)] }
  else st

/-- Fire a list of pending debounce timers in FIFO order (the order the
single-threaded event loop runs callbacks scheduled with the same delay). -/
def fireList (fs : Fs) : List String → AppState → AppState
  | [], st => st
  | q :: rest, st => fireList fs rest (do_search fs st q)

/-- Run the event loop until every pending debounce timer has fired. -/
def fireAll (fs : Fs) (st : AppState) : AppState :=
  fireList fs st.timers { st with timers := [] }

/-- The code-point comparison is total. -/
theorem lexLe_total : ∀ a b : List Char, lexLe a b = true ∨ lexLe b a = true := by
  intro a
  induction a with
  | nil => intro b; left; rfl
  | cons x xs ih =>
    intro b
    cases b with
    | nil => right; rfl
    | cons y ys =>
      simp only [lexLe]
      rcases Nat.lt_trichotomy x.toNat y.toNat with h | h | h
      · left; rw [if_pos h]
      · rcases ih ys with h4 | h4
        · left; rw [if_neg (by omega), if_neg (by omega)]; exact h4
        · right; rw [if_neg (by omega), if_neg (by omega)]; exact h4
      · right; rw [if_pos h]

/-- The code-point comparison is transitive. -/
theorem lexLe_trans :
    ∀ a b c : List Char, lexLe a b = true → lexLe b c = true → lexLe a c = true := by
  intro a
  induction a with
  | nil => intro b c _ _; rfl
  | cons x xs ih =>
    intro b c hab hbc
    cases b with
    | nil => simp [lexLe] at hab
    | cons y ys =>
      cases c with
      | nil => simp [lexLe] at hbc
      | cons z zs =>
        simp only [lexLe] at hab hbc ⊢
        split at hab
        · rename_i h1
          split at hbc
          · rename_i h2
            rw [if_pos (show x.toNat < z.toNat by omega)]
          · split at hbc
            · simp at hbc
            · rename_i h2 h3
              rw [if_pos (show x.toNat < z.toNat by omega)]
        · split at hab
          · simp at hab
          · rename_i h1 h2
            split at hbc
            · rename_i h3
              rw [if_pos (show x.toNat < z.toNat by omega)]
            · split at hbc
              · simp at hbc
              · rename_i h3 h4
                rw [if_neg (show ¬ x.toNat < z.toNat by omega),
                  if_neg (show ¬ z.toNat < x.toNat by omega)]
                exact ih ys zs hab hbc

/-- The entry sort key comparison is total. -/
theorem entryLE_total (a b : Entry) : entryLE a b = true ∨ entryLE b a = true := by
  unfold entryLE
  rcases Nat.lt_trichotomy (rankOf a) (rankOf b) with h | h | h
  · left; rw [if_pos h]
  · rcases lexLe_total (lowerName a) (lowerName b) with h4 | h4
    · left; rw [if_neg (by omega), if_neg (by omega)]; exact h4
    · right; rw [if_neg (by omega), if_neg (by omega)]; exact h4
  · right; rw [if_pos h]

/-- The entry sort key comparison is transitive. -/
theorem entryLE_trans (a b c : Entry) (hab : entryLE a b = true)
    (hbc : entryLE b c = true) : entryLE a c = true := by
  unfold entryLE at hab hbc ⊢
  split at hab
  · rename_i h1
    split at hbc
    · rename_i h2
      rw [if_pos (show rankOf a < rankOf c by omega)]
    · split at hbc
      · simp at hbc
      · rename_i h2 h3
        rw [if_pos (show rankOf a < rankOf c by omega)]
  · split at hab
    · simp at hab
    · rename_i h1 h2
      split at hbc
      · rename_i h3
        rw [if_pos (show rankOf a < rankOf c by omega)]
      · split at hbc
        · simp at hbc
        · rename_i h3 h4
          rw [if_neg (show ¬ rankOf a < rankOf c by omega),
            if_neg (show ¬ rankOf c < rankOf a by omega)]
          exact lexLe_trans _ _ _ hab hbc

/-- Membership in an insertion. -/
theorem mem_insertE {a x : Entry} {l : List Entry} :
    a ∈ insertE x l ↔ a = x ∨ a ∈ l := by
  induction l with
  | nil => simp [insertE]
  | cons y ys ih =>
    simp only [insertE]
    split
    · simp
    · simp only [List.mem_cons, ih]
      tauto

/-- Insertion is a permutation of consing. -/
theorem insertE_perm (x : Entry) (l : List Entry) : (insertE x l).Perm (x :: l) := by
  induction l with
  | nil => simp [insertE]
  | cons y ys ih =>
    simp only [insertE]
    split
    · exact List.Perm.refl _
    · exact (List.Perm.cons y ih).trans (List.Perm.swap x y ys)

/-- The sort permutes its input. -/
theorem sortE_perm (l : List Entry) : (sortE l).Perm l := by
  induction l with
  | nil => simp [sortE]
  | cons x xs ih =>
    exact (insertE_perm x (sortE xs)).trans (List.Perm.cons x ih)

/-- Sortedness of a listing: each entry compares `entryLE` to every later
entry. -/
def SortedE (l : List Entry) : Prop := l.Pairwise (fun a b => entryLE a b = true)

/-- Insertion preserves sortedness. -/
theorem sortedE_insertE {x : Entry} {l : List Entry} (h : SortedE l) :
    SortedE (insertE x l) := by
  induction l with
  | nil => simp [insertE, SortedE]
  | cons y ys ih =>
    simp only [insertE]
    rcases List.pairwise_cons.mp h with ⟨hy, hys⟩
    split
    · rename_i hxy
      refine List.pairwise_cons.mpr ⟨?_, h⟩
      intro z hz
      rcases List.mem_cons.mp hz with rfl | hz
      · exact hxy
      · exact entryLE_trans x y z hxy (hy z hz)
    · rename_i hxy
      have hyx : entryLE y x = true := by
        rcases entryLE_total x y with h4 | h4
        · exact absurd h4 hxy
        · exact h4
      refine List.pairwise_cons.mpr ⟨?_, ih hys⟩
      intro z hz
      rcases mem_insertE.mp hz with rfl | hz
      · exact hyx
      · exact hy z hz

/-- The sort sorts. -/
theorem sortE_sortedE (l : List Entry) : SortedE (sortE l) := by
  induction l with
  | nil => simp [sortE, SortedE]
  | cons x xs ih => exact sortedE_insertE ih

/-- Inserting an entry that compares `≤` to everything present puts it in
front. -/
theorem insertE_all_le {x : Entry} {l : List Entry}
    (h : ∀ z ∈ l, entryLE x z = true) : insertE x l = x :: l := by
  cases l with
  | nil => rfl
  | cons y ys =>
    simp only [insertE]
    rw [if_pos (h y (List.mem_cons_self y ys))]

/-- Filtering past an insertion of an entry the filter keeps, on a sorted
list. -/
theorem filter_insertE_pos {p : Entry → Bool} {x : Entry} {l : List Entry}
    (hp : p x = true) (hs : SortedE l) :
    (insertE x l).filter p = insertE x (l.filter p) := by
  induction l with
  | nil => simp [insertE, hp]
  | cons y ys ih =>
    rcases List.pairwise_cons.mp hs with ⟨hy, hys⟩
    simp only [insertE]
    split
    · rename_i hxy
      by_cases hpy : p y = true
      · have hc : (y :: ys).filter p = y :: ys.filter p := by
          simp [List.filter_cons, hpy]
        rw [List.filter_cons, if_pos hp, hc]
        simp [insertE, hxy]
      · have hpy' : p y = false := by
          cases hq : p y
          · rfl
          · exact absurd hq hpy
        have hc : (y :: ys).filter p = ys.filter p := by
          simp [List.filter_cons, hpy']
        rw [List.filter_cons, if_pos hp, hc]
        have hall : ∀ z ∈ ys.filter p, entryLE x z = true := by
          intro z hz
          exact entryLE_trans x y z hxy (hy z (List.mem_of_mem_filter hz))
        exact (insertE_all_le hall).symm
    · rename_i hxy
      by_cases hpy : p y = true
      · have hc : (y :: ys).filter p = y :: ys.filter p := by
          simp [List.filter_cons, hpy]
        rw [List.filter_cons, if_pos hpy, hc, ih hys]
        simp [insertE, hxy]
      · have hpy' : p y = false := by
          cases hq : p y
          · rfl
          · exact absurd hq hpy
        have hc : (y :: ys).filter p = ys.filter p := by
          simp [List.filter_cons, hpy']
        rw [List.filter_cons, if_neg (by simp [hpy']), hc]
        exact ih hys

/-- Filtering past an insertion of an entry the filter drops. -/
theorem filter_insertE_neg {p : Entry → Bool} {x : Entry} {l : List Entry}
    (hp : p x = false) :
    (insertE x l).filter p = l.filter p := by
  induction l with
  | nil => simp [insertE, hp]
  | cons y ys ih =>
    simp only [insertE]
    split
    · rw [List.filter_cons_of_neg (by simp [hp])]
    · by_cases hpy : p y = true
      · rw [List.filter_cons_of_pos hpy, List.filter_cons_of_pos hpy, ih]
      · have hpy' : p y = false := by
          cases hq : p y
          · rfl
          · exact absurd hq hpy
        rw [List.filter_cons_of_neg (by simp [hpy']),
          List.filter_cons_of_neg (by simp [hpy']), ih]

/-- Filtering commutes with the stable sort: sorting a filtered listing
gives the filtered sorted listing. -/
theorem sortE_filter (p : Entry → Bool) (l : List Entry) :
    sortE (l.filter p) = (sortE l).filter p := by
  induction l with
  | nil => simp [sortE]
  | cons x xs ih =>
    by_cases hp : p x = true
    · rw [List.filter_cons_of_pos hp]
      simp only [sortE]
      rw [ih, filter_insertE_pos hp (sortE_sortedE xs)]
    · have hp' : p x = false := by
        cases hq : p x
        · rfl
        · exact absurd hq hp
      rw [List.filter_cons_of_neg (by simp [hp'])]
      simp only [sortE]
      rw [ih, filter_insertE_neg hp']

/-- With a uniform bound on how many children of one directory match, the
result count stays below `maxResults - 1 + k`: a new directory is only
expanded while the count is at most `maxResults - 1`, and the expansion
adds at most `k` matches. -/
theorem bfsLoop_results_le (fs : Fs) (query : String) (maxResults k : Nat)
    (hk : ∀ p items, fs p = some items → (matchChildren query p items).length ≤ k) :
    ∀ queue results visited, results.length ≤ maxResults - 1 + k →
      (bfsLoop fs query maxResults queue results visited).1.length ≤ maxResults - 1 + k := by
  intro queue results visited
  induction queue, results, visited using bfsLoop.induct fs query maxResults with
  | case1 results visited => intro h; simpa [bfsLoop] using h
  | case2 results visited current rest h1 =>
      intro h
      rw [bfsLoop, if_pos h1]
      simpa using h
  | case3 results visited current rest h1 h2 ih =>
      intro h
      rw [bfsLoop, if_neg h1, if_pos h2]
      exact ih h
  | case4 results visited current rest h1 h2 hfs ih =>
      intro h
      rw [bfsLoop, if_neg h1, if_neg h2, hfs]
      exact ih h
  | case5 results visited current rest h1 h2 items hfs ih =>
      intro _
      rw [bfsLoop, if_neg h1, if_neg h2, hfs]
      apply ih
      have hlt : results.length < maxResults := by
        rcases Nat.lt_or_ge results.length maxResults with h | h
        · exact h
        · exact absurd (Or.inl h) h1
      have hm := hk current items hfs
      simp only [List.length_append]
      omega

/-- The visited set never exceeds 300 entries, and the loop can only stop
by exhausting the frontier, reaching the result cap, or filling the
visited set. -/
theorem bfsLoop_visited_le (fs : Fs) (query : String) (maxResults : Nat) :
    ∀ queue results visited, visited.length ≤ 300 →
      (bfsLoop fs query maxResults queue results visited).2.1.length ≤ 300 ∧
      ((bfsLoop fs query maxResults queue results visited).2.2 = [] ∨
       maxResults ≤ (bfsLoop fs query maxResults queue results visited).1.length ∨
       300 ≤ (bfsLoop fs query maxResults queue results visited).2.1.length) := by
  intro queue results visited
  induction queue, results, visited using bfsLoop.induct fs query maxResults with
  | case1 results visited => intro h; rw [bfsLoop]; exact ⟨h, Or.inl rfl⟩
  | case2 results visited current rest h1 =>
      intro h
      rw [bfsLoop, if_pos h1]
      exact ⟨h, Or.inr (by simpa using h1)⟩
  | case3 results visited current rest h1 h2 ih =>
      intro h
      rw [bfsLoop, if_neg h1, if_pos h2]
      exact ih h
  | case4 results visited current rest h1 h2 hfs ih =>
      intro h
      rw [bfsLoop, if_neg h1, if_neg h2, hfs]
      apply ih
      have : visited.length < 300 := by
        rcases Nat.lt_or_ge visited.length 300 with h3 | h3
        · exact h3
        · exact absurd (Or.inr h3) h1
      simp only [List.length_append, List.length_cons, List.length_nil]
      omega
  | case5 results visited current rest h1 h2 items hfs ih =>
      intro h
      rw [bfsLoop, if_neg h1, if_neg h2, hfs]
      apply ih
      have : visited.length < 300 := by
        rcases Nat.lt_or_ge visited.length 300 with h3 | h3
        · exact h3
        · exact absurd (Or.inr h3) h1
      simp only [List.length_append, List.length_cons, List.length_nil]
      omega

/-- Strict descendant of a root path: the root extended by at least one
name component. -/
def strictDesc (root p : FsPath) : Prop := ∃ s, s ≠ [] ∧ p = root ++ s

/-- Matching children are children of the expanded directory. -/
theorem mem_matchChildren {query : String} {current : FsPath} {items : List Entry}
    {p : FsPath} (hp : p ∈ matchChildren query current items) :
    ∃ n, p = current ++ [n] := by
  rcases List.mem_map.mp hp with ⟨i, _, rfl⟩
  exact ⟨i.name, rfl⟩

/-- Enqueued subdirectories are children of the expanded directory. -/
theorem mem_childDirs {current : FsPath} {items : List Entry}
    {p : FsPath} (hp : p ∈ childDirs current items) :
    ∃ n, p = current ++ [n] := by
  rcases List.mem_map.mp hp with ⟨i, _, rfl⟩
  exact ⟨i.name, rfl⟩

/-- Extending a path that is the root or below it by one component gives a
strict descendant of the root. -/
theorem strictDesc_child {root current : FsPath} (n : String)
    (h : current = root ∨ strictDesc root current) :
    strictDesc root (current ++ [n]) := by
  rcases h with rfl | ⟨s, hs, rfl⟩
  · exact ⟨[n], by simp⟩
  · exact ⟨s ++ [n], by simp⟩

/-- Invariant: if everything in the frontier is the root or strictly below
it and every gathered result is strictly below the root, then every final
result is strictly below the root. -/
theorem bfsLoop_desc (fs : Fs) (query : String) (maxResults : Nat) (root : FsPath) :
    ∀ queue results visited,
      (∀ p ∈ queue, p = root ∨ strictDesc root p) →
      (∀ p ∈ results, strictDesc root p) →
      ∀ p ∈ (bfsLoop fs query maxResults queue results visited).1, strictDesc root p := by
  intro queue results visited
  induction queue, results, visited using bfsLoop.induct fs query maxResults with
  | case1 results visited =>
      intro _ hres
      rw [bfsLoop]
      exact hres
  | case2 results visited current rest h1 =>
      intro _ hres
      rw [bfsLoop, if_pos h1]
      exact hres
  | case3 results visited current rest h1 h2 ih =>
      intro hq hres
      rw [bfsLoop, if_neg h1, if_pos h2]
      exact ih (fun p hp => hq p (List.mem_cons_of_mem current hp)) hres
  | case4 results visited current rest h1 h2 hfs ih =>
      intro hq hres
      rw [bfsLoop, if_neg h1, if_neg h2, hfs]
      exact ih (fun p hp => hq p (List.mem_cons_of_mem current hp)) hres
  | case5 results visited current rest h1 h2 items hfs ih =>
      intro hq hres
      rw [bfsLoop, if_neg h1, if_neg h2, hfs]
      have hcur : current = root ∨ strictDesc root current :=
        hq current (List.mem_cons_self current rest)
      apply ih
      · intro p hp
        rcases List.mem_append.mp hp with hp | hp
        · exact hq p (List.mem_cons_of_mem current hp)
        · rcases mem_childDirs hp with ⟨n, rfl⟩
          exact Or.inr (strictDesc_child n hcur)
      · intro p hp
        rcases List.mem_append.mp hp with hp | hp
        · exact hres p hp
        · rcases mem_matchChildren hp with ⟨n, rfl⟩
          exact strictDesc_child n hcur

/-- Both branches of `load_directory` install the requested path and keep
the hidden-files flag. -/
theorem load_directory_fields (fs : Fs) (st : FileListState) (path : FsPath) :
    (load_directory fs st path).currentPath = path ∧
    (load_directory fs st path).showHidden = st.showHidden := by
  unfold load_directory
  cases fs path <;> exact ⟨rfl, rfl⟩

/-- `apply_filter` never moves to a different directory and never touches
the hidden-files flag. -/
theorem apply_filter_fields (fs : Fs) (st : FileListState) (t : String) :
    (apply_filter fs st t).currentPath = st.currentPath ∧
    (apply_filter fs st t).showHidden = st.showHidden := by
  by_cases hfl : stripStr (lowerStr t) = ""
  · have h : apply_filter fs st t = load_directory fs st st.currentPath := by
      simp [apply_filter, hfl]
    rw [h]
    exact load_directory_fields fs st st.currentPath
  · cases hfs : fs st.currentPath with
    | none => simp [apply_filter, hfl, hfs]
    | some items => simp [apply_filter, hfl, hfs]

/-- `on_input_changed` only ever appends a timer (search mode) or filters
the file list in place (filter mode): the flags, the published results and
the current directory are untouched. -/
theorem on_input_changed_fields (fs : Fs) (st : AppState) (v : String) :
    (on_input_changed fs st v).searchActive = st.searchActive ∧
    (on_input_changed fs st v).published = st.published ∧
    (on_input_changed fs st v).fileList.currentPath = st.fileList.currentPath ∧
    (on_input_changed fs st v).timers =
      st.timers ++ (if st.searchActive ∧ 2 ≤ v.length then [v] else []) := by
  unfold on_input_changed
  split
  · rename_i h
    simp [h]
  · rename_i h
    split
    · exact ⟨rfl, rfl, (apply_filter_fields fs st.fileList v).1, by simp [h]⟩
    · simp [h]

/-- Scheduling a run of inputs accumulates, in FIFO order, one debounce
timer per input of length at least 2 while in search mode. -/
theorem foldl_on_input_changed (fs : Fs) :
    ∀ (inputs : List String) (st : AppState), st.searchActive = true →
      (inputs.foldl (on_input_changed fs) st).searchActive = true ∧
      (inputs.foldl (on_input_changed fs) st).published = st.published ∧
      (inputs.foldl (on_input_changed fs) st).fileList.currentPath =
        st.fileList.currentPath ∧
      (inputs.foldl (on_input_changed fs) st).timers =
        st.timers ++ inputs.filter (fun q => decide (2 ≤ q.length)) := by
  intro inputs
  induction inputs with
  | nil => intro st h; exact ⟨h, rfl, rfl, by simp⟩
  | cons v vs ih =>
    intro st h
    simp only [List.foldl_cons]
    obtain ⟨h1, h2, h3, h4⟩ := on_input_changed_fields fs st v
    obtain ⟨g1, g2, g3, g4⟩ := ih (on_input_changed fs st v) (h1.trans h)
    refine ⟨g1, g2.trans h2, g3.trans h3, ?_⟩
    rw [g4, h4, h]
    by_cases hv : 2 ≤ v.length
    · simp [hv, List.filter_cons]
    · simp [hv, List.filter_cons]

/-- A firing timer leaves everything but the published list alone. -/
theorem do_search_fields (fs : Fs) (st : AppState) (q : String) :
    (do_search fs st q).searchActive = st.searchActive ∧
    (do_search fs st q).fileList = st.fileList ∧
    (do_search fs st q).timers = st.timers := by
  unfold do_search
  split <;> exact ⟨rfl, rfl, rfl⟩

/-- A timer firing while search mode is active publishes its query's
results unconditionally. -/
theorem do_search_published (fs : Fs) (st : AppState) (q : String)
    (h : st.searchActive = true) :
    (do_search fs st q).published = st.published ++
      [(q, bfs_search fs st.fileList.currentPath (lowerStr q) 150)] := by
  unfold do_search
  rw [if_pos h]

/-- Firing a list of timers in FIFO order appends one publication per
timer, in that order, as long as search mode stays active. -/
theorem fireList_published (fs : Fs) :
    ∀ (qs : List String) (st : AppState), st.searchActive = true →
      (fireList fs qs st).published = st.published ++
        qs.map (fun q => (q, bfs_search fs st.fileList.currentPath (lowerStr q) 150)) := by
  intro qs
  induction qs with
  | nil => intro st h; simp [fireList]
  | cons q rest ih =>
    intro st h
    obtain ⟨d1, d2, d3⟩ := do_search_fields fs st q
    simp only [fireList]
    rw [ih (do_search fs st q) (d1.trans h), do_search_published fs st q h, d2]
    simp

/-- Draining all pending timers publishes them in FIFO order. -/
theorem fireAll_published (fs : Fs) (st : AppState) (h : st.searchActive = true) :
    (fireAll fs st).published = st.published ++
      st.timers.map (fun q => (q, bfs_search fs st.fileList.currentPath (lowerStr q) 150)) := by
  unfold fireAll
  rw [fireList_published fs st.timers { st with timers := [] } h]

/-- Files produced on a failed read. -/
theorem load_directory_files_none (fs : Fs) (st : FileListState) (path : FsPath)
    (hfs : fs path = none) : (load_directory fs st path).files = [] := by
  unfold load_directory
  rw [hfs]

/-- Files produced on a successful read: hidden-policy filter, stable
sort, truncation to 300. -/
theorem load_directory_files_eq (fs : Fs) (st : FileListState) (path : FsPath)
    (items : List Entry) (hfs : fs path = some items) :
    (load_directory fs st path).files =
      (sortE (if st.showHidden then items
              else items.filter (fun i => !(isHidden i)))).take 300 := by
  unfold load_directory
  rw [hfs]

/-- Files produced on a successful read with hidden files shown. -/
theorem load_directory_files_show (fs : Fs) (st : FileListState) (path : FsPath)
    (items : List Entry) (hfs : fs path = some items) (hsh : st.showHidden = true) :
    (load_directory fs st path).files = (sortE items).take 300 := by
  rw [load_directory_files_eq fs st path items hfs, hsh]
  simp

/-- Files produced on a successful read with hidden files dropped. -/
theorem load_directory_files_hide (fs : Fs) (st : FileListState) (path : FsPath)
    (items : List Entry) (hfs : fs path = some items) (hsh : st.showHidden = false) :
    (load_directory fs st path).files =
      (sortE (items.filter (fun i => !(isHidden i)))).take 300 := by
  rw [load_directory_files_eq fs st path items hfs, hsh]
  simp

/-- Every listed entry comes from the directory read. -/
theorem load_directory_files_subset (fs : Fs) (st : FileListState) (path : FsPath)
    (items : List Entry) (hfs : fs path = some items) :
    ∀ e ∈ (load_directory fs st path).files, e ∈ items := by
  intro e he
  rw [load_directory_files_eq fs st path items hfs] at he
  have h2 := (sortE_perm _).mem_iff.mp (List.mem_of_mem_take he)
  split at h2
  · exact h2
  · exact List.mem_of_mem_filter h2

/-- Files produced by `apply_filter` on nonempty filter text and a
successful read. -/
theorem apply_filter_files_eq (fs : Fs) (st : FileListState) (text : String)
    (items : List Entry) (hfl : ¬ stripStr (lowerStr text) = "")
    (hfs : fs st.currentPath = some items) :
    (apply_filter fs st text).files =
      (sortE (selectEntries items (stripStr (lowerStr text)))).take 300 := by
  simp [apply_filter, hfl, hfs]

/-- Every selected entry comes from the listing handed to the selection. -/
theorem selectEntries_subset (items : List Entry) (fl : String) :
    ∀ e ∈ selectEntries items fl, e ∈ items := by
  intro e he
  unfold selectEntries at he
  split at he
  · exact List.mem_of_mem_filter he
  · split at he <;> exact List.mem_of_mem_filter he

/-- The sort key order implies the two ordering facts of the listing
contract: no file ever precedes a directory, and key-equal ranks are
ordered by lowercased name. -/
theorem entryLE_elim {a b : Entry} (h : entryLE a b = true) :
    (b.isDir = true → a.isDir = true) ∧
    (a.isDir = b.isDir → lexLe (lowerName a) (lowerName b) = true) := by
  unfold entryLE rankOf at h
  cases ha : a.isDir <;> cases hb : b.isDir <;> simp [ha, hb] at h ⊢ <;> simp_all

/-- Example filesystem: a root directory holding two files whose names
both contain "match". -/
def fsTwoMatches : Fs := fun p =>
  if p = [] then some [⟨"match1.txt", false⟩, ⟨"match2.txt", false⟩] else none

/-- Example filesystem: a single hidden image at the root. -/
def fsHiddenImg : Fs := fun p =>
  if p = [] then some [⟨".x.png", false⟩] else none

/-- Example filesystem: a single PDF document at the root. -/
def fsOnePdf : Fs := fun p =>
  if p = [] then some [⟨"a.pdf", false⟩] else none

/-- Example filesystem: every read fails. -/
def fsUnreadable : Fs := fun _ => none

/-- Zero-padded three-digit decimal numeral. -/
def pad3 (n : Nat) : String :=
  if n < 10 then "00" ++ toString n
  else if n < 100 then "0" ++ toString n
  else toString n

/-- Example filesystem: 300 hidden files and one visible file "z" at the
root, listed in ascending name order. -/
def fsManyHidden : Fs := fun p =>
  if p = [] then
    some ((List.range 300).map (fun i => ⟨".a" ++ pad3 i, false⟩) ++ [⟨"z", false⟩])
  else none

/-- Example filesystem: the root holds one matching file and 300
subdirectories, each of them empty — 301 directories in total. -/
def fsWideTree : Fs := fun p =>
  if p = [] then
    some (⟨"target.txt", false⟩ :: (List.range 300).map (fun i => ⟨"d" ++ pad3 i, true⟩))
  else if p.length = 1 then some []
  else none

/-- A fresh file list at the root with hidden files off. -/
def flInit : FileListState := ⟨[], [], 0, false⟩

/-- A fresh app state in search mode. -/
def appInit : AppState := ⟨true, false, flInit, [], []⟩

/-- Example filesystem: a chain of directories named "d" nested 301 deep
under the root (302 directories in total), with one matching file at the
root. -/
def fsDeep : Fs := fun p =>
  if p.all (fun c => c = "d") then
    (if p.length = 0 then some [⟨"target.txt", false⟩, ⟨"d", true⟩]
     else if p.length ≤ 300 then some [⟨"d", true⟩]
     else if p.length = 301 then some []
     else none)
  else none

/-- Example filesystem: the mixed listing of the specification's category
filter example. -/
def fsMixed : Fs := fun p =>
  if p = [] then
    some [⟨"photo.PNG", false⟩, ⟨"notes.txt", false⟩, ⟨"clip.mp4", false⟩]
  else none

/-- Example filesystem: one hidden file, one directory and one visible
file at the root. -/
def fsMixedHidden : Fs := fun p =>
  if p = [] then some [⟨".h", false⟩, ⟨"b", true⟩, ⟨"a.txt", false⟩] else none

/-- C4: every listing produced by `load_directory` places all directory
entries before all file entries, and within each of the two groups the
entries are in case-insensitive lexicographic order by name. -/
theorem load_directory_ordering (fs : Fs) (st : FileListState) (path : FsPath) :
    (load_directory fs st path).files.Pairwise (fun a b =>
      (b.isDir = true → a.isDir = true) ∧
      (a.isDir = b.isDir → lexLe (lowerName a) (lowerName b) = true)) := by
  cases hfs : fs path with
  | none =>
    rw [load_directory_files_none fs st path hfs]
    simp
  | some items =>
    rw [load_directory_files_eq fs st path items hfs]
    exact ((sortE_sortedE _).imp (fun h => entryLE_elim h)).sublist
      (List.take_sublist 300 _)

/-- C5: on a successful read the listing holds at most 300 entries, and it
is exactly the first 300 entries of the sorted (hidden-filtered) sequence,
so truncation drops the sort-order-last entries rather than an arbitrary
subset. -/
theorem load_directory_truncates (fs : Fs) (st : FileListState) (path : FsPath)
    (items : List Entry) (hfs : fs path = some items) :
    (load_directory fs st path).files.length ≤ 300 ∧
    (load_directory fs st path).files =
      (sortE (if st.showHidden then items
              else items.filter (fun i => !(isHidden i)))).take 300 := by
  refine ⟨?_, load_directory_files_eq fs st path items hfs⟩
  rw [load_directory_files_eq fs st path items hfs]
  exact List.length_take_le 300 _

/-- Witness for C5 on a concrete two-file directory. -/
theorem load_directory_truncates_witness :
    (load_directory fsTwoMatches flInit []).files.length ≤ 300 ∧
    (load_directory fsTwoMatches flInit []).files =
      (sortE (if flInit.showHidden
              then [⟨"match1.txt", false⟩, ⟨"match2.txt", false⟩]
              else [⟨"match1.txt", false⟩, ⟨"match2.txt", false⟩].filter
                (fun i => !(isHidden i)))).take 300 :=
  load_directory_truncates fsTwoMatches flInit []
    [⟨"match1.txt", false⟩, ⟨"match2.txt", false⟩] (by decide)

/-- C6: a PermissionError / OSError while reading a directory yields an
empty listing in an otherwise well-formed state — the path is installed,
the hidden-file flag survives, and no failure propagates (the embedded
operation is total). -/
theorem load_directory_error_gives_empty (fs : Fs) (st : FileListState)
    (path : FsPath) (hfs : fs path = none) :
    (load_directory fs st path).files = [] ∧
    (load_directory fs st path).currentPath = path ∧
    (load_directory fs st path).showHidden = st.showHidden :=
  ⟨load_directory_files_none fs st path hfs, (load_directory_fields fs st path).1,
    (load_directory_fields fs st path).2⟩

/-- Witness for C6 on a filesystem where every read fails. -/
theorem load_directory_error_gives_empty_witness :
    (load_directory fsUnreadable flInit ["locked"]).files = [] ∧
    (load_directory fsUnreadable flInit ["locked"]).currentPath = ["locked"] ∧
    (load_directory fsUnreadable flInit ["locked"]).showHidden = flInit.showHidden :=
  load_directory_error_gives_empty fsUnreadable flInit ["locked"] rfl

/-- C9 (amended): provided the directory holds at most 300 entries (so the
truncation step keeps everything), the listing with hidden files shown is
the listing without them plus exactly the hidden entries: filtering the
hidden names out of the full listing recovers the hidden-off listing
entry for entry, and the hidden names added are exactly the hidden items
of the directory.  With more than 300 entries the truncation after
re-sorting can also drop previously visible entries. -/
theorem toggling_hidden_adds_hidden_entries (fs : Fs) (st : FileListState)
    (path : FsPath) (items : List Entry) (hfs : fs path = some items)
    (hlen : items.length ≤ 300) :
    (load_directory fs { st with showHidden := false } path).files =
      (load_directory fs { st with showHidden := true } path).files.filter
        (fun e => !(isHidden e)) ∧
    ((load_directory fs { st with showHidden := true } path).files.filter
        (fun e => isHidden e)).Perm (items.filter (fun e => isHidden e)) := by
  have hT : (load_directory fs { st with showHidden := true } path).files =
      sortE items := by
    rw [load_directory_files_show fs _ path items hfs rfl]
    exact List.take_of_length_le (by rw [(sortE_perm _).length_eq]; exact hlen)
  have hF : (load_directory fs { st with showHidden := false } path).files =
      sortE (items.filter (fun i => !(isHidden i))) := by
    rw [load_directory_files_hide fs _ path items hfs rfl]
    exact List.take_of_length_le (by
      rw [(sortE_perm _).length_eq]
      exact le_trans (List.length_filter_le _ _) hlen)
  constructor
  · rw [hT, hF, sortE_filter]
  · rw [hT]
    exact (sortE_perm items).filter _

/-- Witness for C9 (amended) on a three-entry directory with one hidden
file. -/
theorem toggling_hidden_adds_hidden_entries_witness :
    (load_directory fsMixedHidden { flInit with showHidden := false } []).files =
      (load_directory fsMixedHidden { flInit with showHidden := true } []).files.filter
        (fun e => !(isHidden e)) ∧
    ((load_directory fsMixedHidden { flInit with showHidden := true } []).files.filter
        (fun e => isHidden e)).Perm
      ([⟨".h", false⟩, ⟨"b", true⟩, ⟨"a.txt", false⟩].filter (fun e => isHidden e)) :=
  toggling_hidden_adds_hidden_entries fsMixedHidden flInit []
    [⟨".h", false⟩, ⟨"b", true⟩, ⟨"a.txt", false⟩] (by decide) (by decide)

set_option maxRecDepth 10000 in
/-- C9 counterexample: a directory with 300 hidden files and one visible
file "z".  Listing with hidden files off shows exactly "z"; toggling
hidden files on re-lists, and the truncation to 300 now drops "z", so the
toggle did not merely add the hidden entries — it also removed a visible
one. -/
theorem hidden_toggle_drops_visible_entry :
    ((toggle_hidden fsManyHidden (load_directory fsManyHidden flInit [])).files.filter
        (fun e => !(isHidden e)) = []) ∧
    (load_directory fsManyHidden flInit []).files = [⟨"z", false⟩] := by decide

/-- C1 counterexample: a root directory with two matching files and
`max_results = 1`.  The loop guard is only checked between directories,
while the inner loop appends every matching child, so the returned
sequence has 2 entries — more than the limit. -/
theorem bfs_search_exceeds_result_cap :
    (bfs_search fsTwoMatches [] "match" 1).length = 2 := by
  simp +decide [bfs_search, bfs_searchFull, bfsLoop, fsTwoMatches, matchChildren,
    childDirs, containsSub, leadsChars, lowerName, lowerChars]

/-- C1 (amended): the result cap is only consulted between directory
expansions, so a single directory's children can push the count past the
limit; the overrun is bounded by the matching children of one directory:
if every directory holds at most `k` matching children, the returned
sequence has length at most `maxResults - 1 + k` (and expansion stops as
soon as the count reaches `maxResults`). -/
theorem bfs_search_length_bound (fs : Fs) (root : FsPath) (query : String)
    (maxResults k : Nat)
    (hk : ∀ p items, fs p = some items → (matchChildren query p items).length ≤ k) :
    (bfs_search fs root query maxResults).length ≤ maxResults - 1 + k :=
  bfsLoop_results_le fs query maxResults k hk [root] [] [] (by simp)

/-- Witness for C1 (amended): with at most 2 matches per directory and
`max_results = 1` the result length is at most 2. -/
theorem bfs_search_length_bound_witness :
    (bfs_search fsTwoMatches [] "match" 1).length ≤ 1 - 1 + 2 :=
  bfs_search_length_bound fsTwoMatches [] "match" 1 2 (by
    intro p items h
    by_cases hp : p = []
    · subst hp
      simp [fsTwoMatches] at h
      subst h
      decide
    · simp [fsTwoMatches, hp] at h)

/-- C7 (amended): the search always terminates (the embedded loop is a
total function), the visited set never exceeds `max_dirs = 300`
directories, and on exit either the frontier is exhausted, or at least
`max_results` results were gathered, or exactly 300 directories were
visited.  When the result cap strikes first, fewer than 300 directories
are visited even in trees with more than 300 directories. -/
theorem bfs_search_visits_bounded (fs : Fs) (root : FsPath) (query : String)
    (maxResults : Nat) :
    (bfs_searchFull fs root query maxResults).2.1.length ≤ 300 ∧
    ((bfs_searchFull fs root query maxResults).2.2 = [] ∨
     maxResults ≤ (bfs_searchFull fs root query maxResults).1.length ∨
     (bfs_searchFull fs root query maxResults).2.1.length = 300) := by
  obtain ⟨h1, h2⟩ := bfsLoop_visited_le fs query maxResults [root] [] [] (by simp)
  refine ⟨h1, ?_⟩
  rcases h2 with h | h | h
  · exact Or.inl h
  · exact Or.inr (Or.inl h)
  · exact Or.inr (Or.inr (le_antisymm h1 h))

set_option maxRecDepth 4000 in
/-- C7 counterexample: a chain of 302 nested directories (more than
`max_dirs = 300`, all readable) with one matching file at the root.  With
`max_results = 1` the search stops after visiting a single directory, not
after 300. -/
theorem bfs_deep_tree_visits_one_directory :
    (∀ i, i ≤ 301 → fsDeep (List.replicate i "d") ≠ none) ∧
    (bfs_searchFull fsDeep [] "target" 1).2.1.length = 1 :=
  ⟨by decide, by
    simp +decide [bfs_searchFull, bfsLoop, fsDeep, matchChildren, childDirs,
      containsSub, leadsChars, lowerName, lowerChars]⟩

/-- C10: every search result is a strict descendant of the root — results
only ever come from children of expanded directories, so the root itself
is never returned even if its own name matches. -/
theorem bfs_search_only_strict_descendants (fs : Fs) (root : FsPath)
    (query : String) (maxResults : Nat) (p : FsPath)
    (hp : p ∈ bfs_search fs root query maxResults) :
    p ≠ root ∧ ∃ s, s ≠ [] ∧ p = root ++ s := by
  have hd : strictDesc root p := by
    refine bfsLoop_desc fs query maxResults root [root] [] [] ?_ ?_ p hp
    · intro q hq
      rcases List.mem_singleton.mp hq with rfl
      exact Or.inl rfl
    · intro q hq
      cases hq
  obtain ⟨s, hs, rfl⟩ := hd
  constructor
  · intro h
    have hlen := congrArg List.length h
    simp only [List.length_append] at hlen
    have : s.length = 0 := by omega
    exact hs (List.length_eq_zero.mp this)
  · exact ⟨s, hs, rfl⟩

/-- Witness for C10 on a concrete search with two results. -/
theorem bfs_search_only_strict_descendants_witness :
    ["match1.txt"] ≠ ([] : FsPath) ∧
    ∃ s, s ≠ [] ∧ ["match1.txt"] = ([] : FsPath) ++ s :=
  bfs_search_only_strict_descendants fsTwoMatches [] "match" 150 ["match1.txt"] (by
    have h : bfs_search fsTwoMatches [] "match" 150
        = [["match1.txt"], ["match2.txt"]] := by
      simp +decide [bfs_search, bfs_searchFull, bfsLoop, fsTwoMatches, matchChildren,
        childDirs, containsSub, leadsChars, lowerName, lowerChars]
    rw [h]
    decide)

/-- C3 counterexample: with hidden files off, listing the directory shows
nothing, yet filtering by "img" re-reads the directory and produces the
hidden image — the filter output is not a subsequence of the entries the
listing had produced. -/
theorem apply_filter_not_a_subsequence :
    ¬ ((apply_filter fsHiddenImg (load_directory fsHiddenImg flInit []) "img").files.Sublist
        (load_directory fsHiddenImg flInit []).files) := by decide

/-- C3 (amended): `apply_filter` ignores the previously produced listing
and re-reads the filesystem: whenever the current directory reads
successfully, its output is a function of the filesystem listing, the
hidden-file flag and the filter text alone (two states differing only in
their displayed entries or selection filter identically), and every
produced entry comes from the fresh directory read, not from the
previously displayed entries. -/
theorem apply_filter_reads_filesystem (fs : Fs) (st1 st2 : FileListState)
    (text : String) (items : List Entry)
    (hp : st1.currentPath = st2.currentPath)
    (hh : st1.showHidden = st2.showHidden)
    (hfs : fs st1.currentPath = some items) :
    (apply_filter fs st1 text).files = (apply_filter fs st2 text).files ∧
    ∀ e ∈ (apply_filter fs st1 text).files, e ∈ items := by
  have hfs2 : fs st2.currentPath = some items := hp ▸ hfs
  by_cases hfl : stripStr (lowerStr text) = ""
  · have e1 : apply_filter fs st1 text = load_directory fs st1 st1.currentPath := by
      simp [apply_filter, hfl]
    have e2 : apply_filter fs st2 text = load_directory fs st2 st2.currentPath := by
      simp [apply_filter, hfl]
    rw [e1, e2]
    constructor
    · rw [load_directory_files_eq fs st1 st1.currentPath items hfs,
        load_directory_files_eq fs st2 st2.currentPath items hfs2, hh]
    · exact load_directory_files_subset fs st1 st1.currentPath items hfs
  · rw [apply_filter_files_eq fs st1 text items hfl hfs,
      apply_filter_files_eq fs st2 text items hfl hfs2]
    refine ⟨rfl, ?_⟩
    intro e he
    exact selectEntries_subset items _ e
      ((sortE_perm _).mem_iff.mp (List.mem_of_mem_take he))

/-- Witness for C3 (amended) on a concrete directory and substring
filter. -/
theorem apply_filter_reads_filesystem_witness :
    ((apply_filter fsTwoMatches (load_directory fsTwoMatches flInit []) "match").files =
      (apply_filter fsTwoMatches flInit "match").files) ∧
    ∀ e ∈ (apply_filter fsTwoMatches (load_directory fsTwoMatches flInit []) "match").files,
      e ∈ [⟨"match1.txt", false⟩, ⟨"match2.txt", false⟩] :=
  apply_filter_reads_filesystem fsTwoMatches (load_directory fsTwoMatches flInit [])
    flInit "match" [⟨"match1.txt", false⟩, ⟨"match2.txt", false⟩]
    (by decide) (by decide) (by decide)

/-- C8 counterexample: "document" is not a key of the `type_filters`
table (only "doc" is), so filtering by "document" falls through to
name-substring matching and drops `a.pdf` even though its extension is in
the document category's extension set. -/
theorem category_document_not_in_table :
    (apply_filter fsOnePdf flInit "document").files = [] ∧
    type_filters.lookup "document" = none ∧
    suffixLower ⟨"a.pdf", false⟩ = ".pdf" ∧
    type_filters.lookup "doc" = some [".pdf", ".doc", ".docx", ".txt", ".md"] := by
  decide

/-- C8 (amended): for every keyword that is a key of the `type_filters`
table (img, image, vid, video, audio, doc, code, archive), the category
filter resolves the keyword to its extension set and keeps exactly the
entries of the fresh listing whose lowercased extension is in that set
(stated for listings within the 300-entry truncation bound). -/
theorem apply_filter_category_keeps_extensions (fs : Fs) (st : FileListState)
    (text : String) (items : List Entry) (exts : List String)
    (hk : type_filters.lookup (stripStr (lowerStr text)) = some exts)
    (hfs : fs st.currentPath = some items) (hlen : items.length ≤ 300) :
    ∀ e, e ∈ (apply_filter fs st text).files ↔ e ∈ items ∧ suffixLower e ∈ exts := by
  have hfl : ¬ stripStr (lowerStr text) = "" := by
    intro h
    rw [h] at hk
    have h0 : type_filters.lookup "" = (none : Option (List String)) := by decide
    rw [h0] at hk
    cases hk
  have hsel : selectEntries items (stripStr (lowerStr text)) =
      items.filter (fun i => decide (suffixLower i ∈ exts)) := by
    unfold selectEntries
    rw [hk]
  intro e
  rw [apply_filter_files_eq fs st text items hfl hfs, hsel]
  have hlen2 :
      (sortE (items.filter (fun i => decide (suffixLower i ∈ exts)))).length ≤ 300 := by
    rw [(sortE_perm _).length_eq]
    exact le_trans (List.length_filter_le _ _) hlen
  rw [List.take_of_length_le hlen2, (sortE_perm _).mem_iff, List.mem_filter]
  simp

/-- Witness for C8 (amended): the specification's own example — filtering
a mixed listing by "image" keeps `photo.PNG` despite its uppercase
extension. -/
theorem apply_filter_category_keeps_extensions_witness :
    (⟨"photo.PNG", false⟩ : Entry) ∈ (apply_filter fsMixed flInit "image").files ↔
      (⟨"photo.PNG", false⟩ : Entry) ∈
        [⟨"photo.PNG", false⟩, ⟨"notes.txt", false⟩, ⟨"clip.mp4", false⟩] ∧
      suffixLower ⟨"photo.PNG", false⟩ ∈
        [".png", ".jpg", ".jpeg", ".gif", ".bmp", ".webp", ".ico", ".svg"] :=
  apply_filter_category_keeps_extensions fsMixed flInit "image"
    [⟨"photo.PNG", false⟩, ⟨"notes.txt", false⟩, ⟨"clip.mp4", false⟩]
    [".png", ".jpg", ".jpeg", ".gif", ".bmp", ".webp", ".ico", ".svg"]
    (by decide) (by decide) (by decide) ⟨"photo.PNG", false⟩

/-- C2 counterexample: in search mode, issuing "aa" and then "aab" before
the first debounce timer fires leaves both timers pending; both then fire
and both publish, so the superseded query "aa" has its results delivered
to the search panel (first, before being overwritten by the newer ones).
No generation check prevents this — the code has no generation counter. -/
theorem stale_search_results_are_published :
    ((fireAll fsUnreadable (on_input_changed fsUnreadable
        (on_input_changed fsUnreadable appInit "aa") "aab")).published.map Prod.fst)
      = ["aa", "aab"] := rfl

/-- C2 (amended): there is no generation counter; the only staleness guard
is the `search_active` flag.  Starting from search mode with no pending
work, a burst of inputs arriving before any timer fires schedules one
timer per input of length at least 2, and when the timers fire every one
of those queries — superseded ones included — publishes its results, in
issue order (so the newest query's results merely arrive last). -/
theorem overlapping_searches_publish_in_order (fs : Fs) (st : AppState)
    (inputs : List String) (hA : st.searchActive = true) (hT : st.timers = [])
    (hP : st.published = []) :
    (fireAll fs (inputs.foldl (on_input_changed fs) st)).published =
      (inputs.filter (fun q => decide (2 ≤ q.length))).map
        (fun q => (q, bfs_search fs st.fileList.currentPath (lowerStr q) 150)) := by
  obtain ⟨g1, g2, g3, g4⟩ := foldl_on_input_changed fs inputs st hA
  rw [fireAll_published fs _ g1, g2, hP, g3, g4, hT]
  simp

/-- Witness for C2 (amended) on the concrete overlapping-input run. -/
theorem overlapping_searches_publish_in_order_witness :
    (fireAll fsUnreadable
        (["aa", "aab"].foldl (on_input_changed fsUnreadable) appInit)).published =
      (["aa", "aab"].filter (fun q => decide (2 ≤ q.length))).map
        (fun q => (q, bfs_search fsUnreadable appInit.fileList.currentPath
          (lowerStr q) 150)) :=
  overlapping_searches_publish_in_order fsUnreadable appInit ["aa", "aab"] rfl rfl rfl
